import Mathlib

/-!
Verification of the ArbitraryMutation combinator core (src/ArbitraryMutation.ts).

The library builds, per schema node, a pair of fast-check generators: a valid
one (`arbitrary`) and a corrupted one (`mutation`).  We embed each generator
denotationally by its support: the set of values it can draw.  The generator
contract consumed from fast-check (constant, oneof, map, chain, filter) is
interpreted over supports; all the combinators of the source file are then
translated definition by definition.
-/

/-- JavaScript values, as far as this library observes them: literal scalars,
null, arrays and (insertion-ordered) string-keyed objects. -/
inductive JSValue where
  | str : String → JSValue
  | num : Int → JSValue
  | bool : Bool → JSValue
  | null : JSValue
  | arr : List JSValue → JSValue
  | obj : List (String × JSValue) → JSValue
  deriving Repr

/-- Modelled from the spec: generator contract, `constant(value)` — the support
is the single value. -/
def fcConstant {α : Type} (v : α) : Set α := {v}

/-- Modelled from the spec: generator contract, `oneOf(generators…)` (uniform
discrete choice) — the support is the union of the member supports. -/
def fcOneof {α : Type} (gs : List (Set α)) : Set α := { v | ∃ g ∈ gs, v ∈ g }

/-- Modelled from the spec: generator contract, `map(f)` — the support is the
image of the support. -/
def fcMap {α β : Type} (f : α → β) (g : Set α) : Set β := { w | ∃ a ∈ g, w = f a }

/-- Modelled from the spec: generator contract, `chain(f)` (draw, then pick the
next generator from the drawn value). -/
def fcChain {α β : Type} (g : Set α) (f : α → Set β) : Set β := { w | ∃ a ∈ g, w ∈ f a }

/-- Modelled from the spec: generator contract, `filter(predicate)` with
redraw — the support keeps exactly the draws satisfying the predicate. -/
def fcFilter {α : Type} (p : α → Prop) (g : Set α) : Set α := { v ∈ g | p v }

/-- Modelled from the spec: `A.string` of the Arbitrary interpreter (file not
under src/) — the generic string generator; support = all strings. -/
def ArbString : Set JSValue := { v | ∃ s, v = JSValue.str s }

/-- Modelled from the spec: `A.number` — the generic number generator. -/
def ArbNumber : Set JSValue := { v | ∃ n, v = JSValue.num n }

/-- Modelled from the spec: `A.boolean` — the generic boolean generator. -/
def ArbBoolean : Set JSValue := { v | ∃ b, v = JSValue.bool b }

/-- Modelled from the spec: `A.UnknownArray` — a generic array of unknown
values. -/
def ArbUnknownArray : Set JSValue := { v | ∃ l, v = JSValue.arr l }

/-- Modelled from the spec: `A.UnknownRecord` — a generic string-keyed mapping
(JavaScript objects cannot repeat a key). -/
def ArbUnknownRecord : Set JSValue :=
  { v | ∃ fs : List (String × JSValue), v = JSValue.obj fs ∧ (List.map Prod.fst fs).Nodup }

/-- Modelled from the spec: `A.literal(values…)` — uniform choice among the
allowed values; support = the values themselves. -/
def ArbLiteral (values : List JSValue) : Set JSValue := { v | v ∈ values }

/-- Modelled from the spec: `A.union` — choose one member generator. -/
def ArbUnion (gs : List (Set JSValue)) : Set JSValue := fcOneof gs

/-- One drawn object field matches its declared field when the keys agree and
the value lies in the field generator's support. -/
def fieldOk (kv : String × JSValue) (kg : String × Set JSValue) : Prop :=
  kv.1 = kg.1 ∧ kv.2 ∈ kg.2

/-- Modelled from the spec: `A.type(properties)` — objects carrying exactly the
declared fields, in declaration order, each value drawn from its field
generator. -/
def ArbType (fields : List (String × Set JSValue)) : Set JSValue :=
  { v | ∃ l, v = JSValue.obj l ∧ List.Forall₂ fieldOk l fields }

/-- Modelled from the spec: the optional-object arbitrary (each declared field
independently present with a valid value or absent, declaration order kept). -/
def ArbPartialObj (fields : List (String × Set JSValue)) : Set JSValue :=
  { v | ∃ l sub, v = JSValue.obj l ∧ List.Sublist sub fields ∧ List.Forall₂ fieldOk l sub }

/-- Modelled from the spec: `A.tuple(components)` — fixed-arity positional
draws. -/
def ArbTuple (gs : List (Set JSValue)) : Set JSValue :=
  { v | ∃ l, v = JSValue.arr l ∧ List.Forall₂ (fun x g => x ∈ g) l gs }

/-- Modelled from the spec: `A.array(item)` — sequences whose every element is
drawn from the item generator. -/
def ArbArray (g : Set JSValue) : Set JSValue :=
  { v | ∃ l, v = JSValue.arr l ∧ ∀ x ∈ l, x ∈ g }

/-- Modelled from the spec: `A.record(codomain)` — string-keyed mappings whose
every value is drawn from the codomain generator. -/
def ArbRecord (g : Set JSValue) : Set JSValue :=
  { v | ∃ fs : List (String × JSValue),
      v = JSValue.obj fs ∧ (List.map Prod.fst fs).Nodup ∧ ∀ kv ∈ fs, kv.2 ∈ g }

/-- JavaScript object merge in the style of Object.assign of two objects: the
left object's fields in order (overridden by the right object where the key is
shared), followed by the right object's remaining fields. -/
def mergeFields (fa fb : List (String × JSValue)) : List (String × JSValue) :=
  (fa.map fun kv =>
    match fb.find? (fun kv2 => kv2.1 == kv.1) with
    | some kv2 => (kv.1, kv2.2)
    | none => kv) ++
    fb.filter (fun kv2 => !(fa.any (fun kv => kv.1 == kv2.1)))

/-- Modelled from the spec: the structural merge underlying
`A.intersection` — two objects are merged field-wise (right side winning on a
shared key); otherwise the right value stands. -/
def intersectJS (a b : JSValue) : JSValue :=
  match a, b with
  | JSValue.obj fa, JSValue.obj fb => JSValue.obj (mergeFields fa fb)
  | _, _ => b

/-- Modelled from the spec: `A.intersection(left, right)` — draw from both
sides and merge structurally. -/
def ArbIntersection (l r : Set JSValue) : Set JSValue :=
  { v | ∃ a ∈ l, ∃ b ∈ r, v = intersectJS a b }

/-- Modelled from the spec: the literal-equality predicate of
`G.guard.literal(...values).is` (Guard file not under src/) — JavaScript
strict equality of one allowed literal against a candidate. -/
def litEq (a b : JSValue) : Bool :=
  match a, b with
  | JSValue.str x, JSValue.str y => x == y
  | JSValue.num x, JSValue.num y => x == y
  | JSValue.bool x, JSValue.bool y => x == y
  | JSValue.null, JSValue.null => true
  | _, _ => false

/-- Modelled from the spec: `G.guard.literal(...values).is` — true when the
candidate strictly equals one of the allowed literal values. -/
def guardLiteral (values : List JSValue) (v : JSValue) : Bool :=
  values.any (fun a => litEq a v)

/-- The JavaScript spread-update `\x7b...a, [k]: m\x7d` on a field list: an
existing key keeps its position and gets the new value; a fresh key is appended
at the end. -/
def setField (fs : List (String × JSValue)) (k : String) (m : JSValue) :
    List (String × JSValue) :=
  if fs.any (fun kv => kv.1 == k) then fs.map (fun kv => if kv.1 == k then (k, m) else kv)
  else fs ++ [(k, m)]

/-- The JavaScript spread-update on a value drawn as an object. -/
def objSet (a : JSValue) (k : String) (m : JSValue) : JSValue :=
  match a with
  | JSValue.obj fs => JSValue.obj (setField fs k m)
  | _ => JSValue.obj (setField [] k m)

/-- Object.keys: the key list of an object value. -/
def objKeys (v : JSValue) : List String :=
  match v with
  | JSValue.obj fs => fs.map Prod.fst
  | _ => []

/-- First-match field lookup in a field list. -/
def listLookup (fs : List (String × JSValue)) (k : String) : Option JSValue :=
  match fs with
  | [] => none
  | kv :: rest => if kv.1 == k then some kv.2 else listLookup rest k

/-- Field lookup on an object value. -/
def objLookup (v : JSValue) (k : String) : Option JSValue :=
  match v with
  | JSValue.obj fs => listLookup fs k
  | _ => none

/-- The source's `nonEmpty(o)`: Object.keys(o).length > 0. -/
def nonEmpty (o : JSValue) : Prop := (objKeys o).length > 0

/-- fp-ts `isNonEmpty` on an array value. -/
def isNonEmptyA (v : JSValue) : Prop :=
  match v with
  | JSValue.arr l => l ≠ []
  | _ => False

/-- fp-ts `unsafeUpdateAt i m t` on an array value (always used in bounds by
the source). -/
def arrUpdate (t : JSValue) (i : Nat) (m : JSValue) : JSValue :=
  match t with
  | JSValue.arr l => JSValue.arr (l.set i m)
  | other => other

/-- The paired-generator model of the source: the corrupted generator and the
corresponding valid generator of one schema node. -/
structure ArbitraryMutation where
  mutation : Set JSValue
  arbitrary : Set JSValue

namespace AM

/-- Source `make`. -/
def make (mutation : Set JSValue) (arbitrary : Set JSValue) : ArbitraryMutation :=
  { mutation := mutation, arbitrary := arbitrary }

/-- Source `literalsArbitrary`: the full literal universe (string, number,
boolean, null). -/
def literalsArbitrary : Set JSValue :=
  ArbUnion [ArbString, ArbNumber, ArbBoolean, fcConstant JSValue.null]

/-- Source `literal(...values)`. -/
def literal (values : List JSValue) : ArbitraryMutation :=
  make (fcFilter (fun v => guardLiteral values v = false) literalsArbitrary)
    (ArbLiteral values)

/-- Source `string`. -/
def string : ArbitraryMutation := make (fcOneof [ArbNumber, ArbBoolean]) ArbString

/-- Source `number`. -/
def number : ArbitraryMutation := make (fcOneof [ArbString, ArbBoolean]) ArbNumber

/-- Source `boolean`. -/
def boolean : ArbitraryMutation :=
  make
    (fcOneof [ArbString, ArbNumber,
      fcOneof [fcConstant (JSValue.str "true"), fcConstant (JSValue.str "false"),
        fcConstant (JSValue.str "0"), fcConstant (JSValue.str "1")]])
    ArbBoolean

/-- Source `UnknownArray`. -/
def UnknownArray : ArbitraryMutation := make ArbUnknownRecord ArbUnknownArray

/-- Source `UnknownRecord`. -/
def UnknownRecord : ArbitraryMutation := make ArbUnknownArray ArbUnknownRecord

/-- Source `union(...members)`. -/
def union (members : List ArbitraryMutation) : ArbitraryMutation :=
  make (ArbUnion (members.map fun m => m.mutation))
    (ArbUnion (members.map fun m => m.arbitrary))

/-- Source `nullMutation`. -/
def nullMutation : ArbitraryMutation :=
  make (fcConstant (JSValue.obj [])) (fcConstant JSValue.null)

/-- Source `nullable(or)`. -/
def nullable (o : ArbitraryMutation) : ArbitraryMutation := union [nullMutation, o]

/-- The record lookup `mutations[key]` built by the source's for-in loop. -/
def mutLookup (properties : List (String × ArbitraryMutation)) (k : String) :
    Set JSValue :=
  match properties.find? (fun p => p.1 == k) with
  | some p => p.2.mutation
  | none => ∅

/-- Source `type(properties)`. -/
def type (properties : List (String × ArbitraryMutation)) : ArbitraryMutation :=
  if (properties.map Prod.fst).length = 0 then
    make (fcConstant (JSValue.arr [])) (fcConstant (JSValue.obj []))
  else
    make
      (fcChain (ArbType (properties.map fun p => (p.1, p.2.arbitrary))) fun a =>
        fcChain (fcOneof ((properties.map Prod.fst).map fcConstant)) fun k =>
          fcMap (fun m => objSet a k m) (mutLookup properties k))
      (ArbType (properties.map fun p => (p.1, p.2.arbitrary)))

/-- Source `partial(properties)` (renamed: the source name is reserved in
Lean). -/
def partialC (properties : List (String × ArbitraryMutation)) : ArbitraryMutation :=
  if (properties.map Prod.fst).length = 0 then
    make (fcConstant (JSValue.arr [])) (fcConstant (JSValue.obj []))
  else
    make
      (fcChain
        (fcFilter nonEmpty (ArbPartialObj (properties.map fun p => (p.1, p.2.arbitrary))))
        fun a =>
          fcChain (fcOneof ((properties.map Prod.fst).map fcConstant)) fun k =>
            fcMap (fun m => objSet a k m) (mutLookup properties k))
      (ArbPartialObj (properties.map fun p => (p.1, p.2.arbitrary)))

/-- Source `record(codomain)`. -/
def record (codomain : ArbitraryMutation) : ArbitraryMutation :=
  make (fcFilter nonEmpty (ArbRecord codomain.mutation)) (ArbRecord codomain.arbitrary)

/-- Source `array(items)`. -/
def array (items : ArbitraryMutation) : ArbitraryMutation :=
  make (fcFilter isNonEmptyA (ArbArray items.mutation)) (ArbArray items.arbitrary)

/-- The positional lookup `mutations[i]` of the source's `tuple`. -/
def mutIdx (components : List ArbitraryMutation) (i : Nat) : Set JSValue :=
  match components.get? i with
  | some c => c.mutation
  | none => ∅

/-- Source `tuple(...components)`. -/
def tuple (components : List ArbitraryMutation) : ArbitraryMutation :=
  if components.length = 0 then
    make (fcConstant (JSValue.obj [])) (ArbTuple (components.map fun c => c.arbitrary))
  else
    make
      (fcChain (ArbTuple (components.map fun c => c.arbitrary)) fun t =>
        fcChain (fcOneof ((List.range components.length).map fcConstant)) fun i =>
          fcMap (fun m => arrUpdate t i m) (mutIdx components i))
      (ArbTuple (components.map fun c => c.arbitrary))

/-- Source `intersection(left, right)`. -/
def intersection (left : ArbitraryMutation) (right : ArbitraryMutation) :
    ArbitraryMutation :=
  make (ArbIntersection left.mutation right.mutation)
    (ArbIntersection left.arbitrary right.arbitrary)

end AM

/-- Modelled from the spec (the mechanism asserted for the optional-object
corrupted generator): redraw the valid instance until non-empty, choose one key
uniformly among the keys actually present in that instance, and replace that
field's value with a draw from that field's corrupted generator.  Stated for
comparison with the source's `AM.partialC`, which chooses among all declared
keys instead. -/
def partialSpecCorrupted (properties : List (String × ArbitraryMutation)) :
    Set JSValue :=
  fcChain
    (fcFilter nonEmpty (ArbPartialObj (properties.map fun p => (p.1, p.2.arbitrary))))
    fun a =>
      fcChain (fcOneof ((objKeys a).map fcConstant)) fun k =>
        fcMap (fun m => objSet a k m) (AM.mutLookup properties k)

@[simp] theorem mem_fcConstant {α : Type} {v w : α} : v ∈ fcConstant w ↔ v = w :=
  Set.mem_singleton_iff

@[simp] theorem mem_fcOneof {α : Type} {gs : List (Set α)} {v : α} :
    v ∈ fcOneof gs ↔ ∃ g ∈ gs, v ∈ g := Iff.rfl

@[simp] theorem mem_fcMap {α β : Type} {f : α → β} {g : Set α} {w : β} :
    w ∈ fcMap f g ↔ ∃ a ∈ g, w = f a := Iff.rfl

@[simp] theorem mem_fcChain {α β : Type} {g : Set α} {f : α → Set β} {w : β} :
    w ∈ fcChain g f ↔ ∃ a ∈ g, w ∈ f a := Iff.rfl

@[simp] theorem mem_fcFilter {α : Type} {p : α → Prop} {g : Set α} {v : α} :
    v ∈ fcFilter p g ↔ v ∈ g ∧ p v := Iff.rfl

@[simp] theorem mem_ArbString {v : JSValue} : v ∈ ArbString ↔ ∃ s, v = JSValue.str s :=
  Iff.rfl

@[simp] theorem mem_ArbNumber {v : JSValue} : v ∈ ArbNumber ↔ ∃ n, v = JSValue.num n :=
  Iff.rfl

@[simp] theorem mem_ArbBoolean {v : JSValue} : v ∈ ArbBoolean ↔ ∃ b, v = JSValue.bool b :=
  Iff.rfl

@[simp] theorem mem_ArbUnknownArray {v : JSValue} :
    v ∈ ArbUnknownArray ↔ ∃ l, v = JSValue.arr l := Iff.rfl

@[simp] theorem mem_ArbUnknownRecord {v : JSValue} :
    v ∈ ArbUnknownRecord ↔
      ∃ fs : List (String × JSValue), v = JSValue.obj fs ∧ (List.map Prod.fst fs).Nodup :=
  Iff.rfl

@[simp] theorem mem_ArbLiteral {values : List JSValue} {v : JSValue} :
    v ∈ ArbLiteral values ↔ v ∈ values := Iff.rfl

@[simp] theorem mem_ArbUnion {gs : List (Set JSValue)} {v : JSValue} :
    v ∈ ArbUnion gs ↔ ∃ g ∈ gs, v ∈ g := Iff.rfl

@[simp] theorem mem_ArbType {fields : List (String × Set JSValue)} {v : JSValue} :
    v ∈ ArbType fields ↔ ∃ l, v = JSValue.obj l ∧ List.Forall₂ fieldOk l fields := Iff.rfl

@[simp] theorem mem_ArbPartialObj {fields : List (String × Set JSValue)} {v : JSValue} :
    v ∈ ArbPartialObj fields ↔
      ∃ l sub, v = JSValue.obj l ∧ List.Sublist sub fields ∧ List.Forall₂ fieldOk l sub :=
  Iff.rfl

@[simp] theorem mem_ArbTuple {gs : List (Set JSValue)} {v : JSValue} :
    v ∈ ArbTuple gs ↔ ∃ l, v = JSValue.arr l ∧ List.Forall₂ (fun x g => x ∈ g) l gs :=
  Iff.rfl

@[simp] theorem mem_ArbArray {g : Set JSValue} {v : JSValue} :
    v ∈ ArbArray g ↔ ∃ l, v = JSValue.arr l ∧ ∀ x ∈ l, x ∈ g := Iff.rfl

@[simp] theorem mem_ArbRecord {g : Set JSValue} {v : JSValue} :
    v ∈ ArbRecord g ↔
      ∃ fs : List (String × JSValue),
        v = JSValue.obj fs ∧ (List.map Prod.fst fs).Nodup ∧ ∀ kv ∈ fs, kv.2 ∈ g :=
  Iff.rfl

@[simp] theorem mem_ArbIntersection {l r : Set JSValue} {v : JSValue} :
    v ∈ ArbIntersection l r ↔ ∃ a ∈ l, ∃ b ∈ r, v = intersectJS a b := Iff.rfl

@[simp] theorem AM.make_mutation {m a : Set JSValue} : (AM.make m a).mutation = m := rfl

@[simp] theorem AM.make_arbitrary {m a : Set JSValue} : (AM.make m a).arbitrary = a := rfl

theorem AM.type_eq_of_ne {properties : List (String × ArbitraryMutation)}
    (h : properties ≠ []) :
    AM.type properties =
      AM.make
        (fcChain (ArbType (properties.map fun p => (p.1, p.2.arbitrary))) fun a =>
          fcChain (fcOneof ((properties.map Prod.fst).map fcConstant)) fun k =>
            fcMap (fun m => objSet a k m) (AM.mutLookup properties k))
        (ArbType (properties.map fun p => (p.1, p.2.arbitrary))) := by
  rw [AM.type, if_neg]
  simp [List.length_eq_zero, h]

theorem AM.partialC_eq_of_ne {properties : List (String × ArbitraryMutation)}
    (h : properties ≠ []) :
    AM.partialC properties =
      AM.make
        (fcChain
          (fcFilter nonEmpty
            (ArbPartialObj (properties.map fun p => (p.1, p.2.arbitrary))))
          fun a =>
            fcChain (fcOneof ((properties.map Prod.fst).map fcConstant)) fun k =>
              fcMap (fun m => objSet a k m) (AM.mutLookup properties k))
        (ArbPartialObj (properties.map fun p => (p.1, p.2.arbitrary))) := by
  rw [AM.partialC, if_neg]
  simp [List.length_eq_zero, h]

theorem AM.tuple_eq_of_ne {components : List ArbitraryMutation} (h : components ≠ []) :
    AM.tuple components =
      AM.make
        (fcChain (ArbTuple (components.map fun c => c.arbitrary)) fun t =>
          fcChain (fcOneof ((List.range components.length).map fcConstant)) fun i =>
            fcMap (fun m => arrUpdate t i m) (AM.mutIdx components i))
        (ArbTuple (components.map fun c => c.arbitrary)) := by
  rw [AM.tuple, if_neg]
  simp [List.length_eq_zero, h]

/-- Claim C4 (counterexample): the corrupted generator of `type(\x7b\x7d)` draws the
empty array, which is not the empty object the claim promises. -/
theorem C4_counterexample :
    JSValue.arr [] ∈ (AM.type []).mutation ∧ JSValue.arr [] ≠ JSValue.obj [] := by
  refine ⟨rfl, by simp⟩

/-- Claim C4 (amended): for zero declared fields, the valid generator of
`type(\x7b\x7d)` degrades to the constant empty object, while the corrupted
generator degrades to the constant empty array (a wrong-kind value, not the
valid empty object). -/
theorem C4_zero_field_type_generators :
    (AM.type []).mutation = {JSValue.arr []} ∧ (AM.type []).arbitrary = {JSValue.obj []} :=
  ⟨rfl, rfl⟩

/-- Claim C5 (counterexample): the corrupted generator of the zero-arity tuple
draws the empty object, which is not the empty tuple the claim promises. -/
theorem C5_counterexample :
    JSValue.obj [] ∈ (AM.tuple []).mutation ∧ JSValue.obj [] ≠ JSValue.arr [] := by
  refine ⟨rfl, by simp⟩

/-- Claim C5 (amended): for the zero-arity tuple, the valid generator degrades
to the constant empty tuple, while the corrupted generator degrades to the
constant empty object (a wrong-kind value, not the valid empty tuple). -/
theorem C5_zero_arity_tuple_generators :
    (AM.tuple []).mutation = {JSValue.obj []} ∧ (AM.tuple []).arbitrary = {JSValue.arr []} := by
  refine ⟨rfl, ?_⟩
  ext v
  simp [AM.tuple, List.forall₂_nil_right_iff]

theorem any_key_iff {fs : List (String × JSValue)} {k : String} :
    (fs.any fun kv => kv.1 == k) = true ↔ k ∈ fs.map Prod.fst := by
  simp [List.any_eq_true, List.mem_map]

theorem setField_map_fst_of_mem {fs : List (String × JSValue)} {k : String}
    {m : JSValue} (h : k ∈ fs.map Prod.fst) :
    (setField fs k m).map Prod.fst = fs.map Prod.fst := by
  rw [setField, if_pos (any_key_iff.mpr h), List.map_map]
  refine List.map_congr_left ?_
  intro kv _
  by_cases hk : kv.1 = k
  · simp [hk]
  · simp [hk]

theorem setField_map_fst_of_not_mem {fs : List (String × JSValue)} {k : String}
    {m : JSValue} (h : k ∉ fs.map Prod.fst) :
    (setField fs k m).map Prod.fst = fs.map Prod.fst ++ [k] := by
  have hc : ¬ ((fs.any fun kv => kv.1 == k) = true) := fun hc => h (any_key_iff.mp hc)
  rw [setField, if_neg hc]
  simp

theorem lookup_replace_self {fs : List (String × JSValue)} {k : String} {m : JSValue}
    (h : k ∈ fs.map Prod.fst) :
    listLookup (fs.map fun kv => if kv.1 == k then (k, m) else kv) k = some m := by
  induction fs with
  | nil => simp at h
  | cons kv fs ih =>
    by_cases hk : kv.1 = k
    · simp [listLookup, hk]
    · rw [List.map_cons] at h
      rcases List.mem_cons.mp h with h3 | h3
      · exact absurd h3.symm hk
      · have hrec := ih h3
        simp only [List.map_cons, listLookup] at hrec ⊢
        simp only [beq_iff_eq] at hrec ⊢
        simp [hk, hrec]

theorem lookup_append_self {fs : List (String × JSValue)} {k : String} {m : JSValue}
    (h : k ∉ fs.map Prod.fst) : listLookup (fs ++ [(k, m)]) k = some m := by
  induction fs with
  | nil => simp [listLookup]
  | cons kv fs ih =>
    have hk : ¬ kv.1 = k := fun hc => h (by simp [hc])
    have h2 : k ∉ fs.map Prod.fst := fun hc => h (by simp [hc])
    have hrec := ih h2
    simp only [List.cons_append, listLookup, beq_iff_eq] at hrec ⊢
    simp [hk, hrec]

theorem listLookup_setField_self {fs : List (String × JSValue)} {k : String}
    {m : JSValue} : listLookup (setField fs k m) k = some m := by
  by_cases h : k ∈ fs.map Prod.fst
  · rw [setField, if_pos (any_key_iff.mpr h)]
    exact lookup_replace_self h
  · rw [setField, if_neg (fun hc => h (any_key_iff.mp hc))]
    exact lookup_append_self h

theorem lookup_replace_ne {fs : List (String × JSValue)} {k q : String} {m : JSValue}
    (h : q ≠ k) :
    listLookup (fs.map fun kv => if kv.1 == k then (k, m) else kv) q = listLookup fs q := by
  have hkq : ¬ k = q := fun hc => h hc.symm
  induction fs with
  | nil => rfl
  | cons kv fs ih =>
    simp only [List.map_cons, listLookup, beq_iff_eq] at ih ⊢
    by_cases hk : kv.1 = k
    · simp [hk, hkq, ih]
    · by_cases hq : kv.1 = q
      · simp [hk, hq, h]
      · simp [hk, hq, ih]

theorem lookup_append_ne {fs : List (String × JSValue)} {k q : String} {m : JSValue}
    (h : q ≠ k) : listLookup (fs ++ [(k, m)]) q = listLookup fs q := by
  have hkq : ¬ k = q := fun hc => h hc.symm
  induction fs with
  | nil => simp [listLookup, hkq]
  | cons kv fs ih =>
    simp only [List.cons_append, listLookup, beq_iff_eq] at ih ⊢
    by_cases hq : kv.1 = q
    · simp [hq]
    · simp [hq, ih]

theorem listLookup_setField_ne {fs : List (String × JSValue)} {k q : String}
    {m : JSValue} (h : q ≠ k) : listLookup (setField fs k m) q = listLookup fs q := by
  by_cases hmem : k ∈ fs.map Prod.fst
  · rw [setField, if_pos (any_key_iff.mpr hmem)]
    exact lookup_replace_ne h
  · rw [setField, if_neg (fun hc => hmem (any_key_iff.mp hc))]
    exact lookup_append_ne h

theorem forall2_map_fst {l : List (String × JSValue)}
    {fields : List (String × Set JSValue)} (h : List.Forall₂ fieldOk l fields) :
    l.map Prod.fst = fields.map Prod.fst := by
  induction h with
  | nil => rfl
  | cons h1 h2 ih => simp [h1.1, ih]

theorem forall2_lookup {l : List (String × JSValue)}
    {fields : List (String × Set JSValue)} (h : List.Forall₂ fieldOk l fields)
    (hnd : (fields.map Prod.fst).Nodup) :
    ∀ p ∈ fields, ∃ w, listLookup l p.1 = some w ∧ w ∈ p.2 := by
  induction h with
  | nil =>
    intro p hp
    simp at hp
  | cons h1 h2 ih =>
    rename_i a b l1 l2
    intro p hp
    have hnd1 : b.1 ∉ l2.map Prod.fst := (List.nodup_cons.mp (by simpa using hnd)).1
    have hnd2 : (l2.map Prod.fst).Nodup := (List.nodup_cons.mp (by simpa using hnd)).2
    rcases List.mem_cons.mp hp with hp | hp
    · subst hp
      refine ⟨a.2, ?_, h1.2⟩
      rw [listLookup, if_pos (by simpa using h1.1)]
    · have hbp : ¬ a.1 = p.1 := by
        rw [h1.1]
        intro hc
        rw [hc] at hnd1
        exact hnd1 (List.mem_map.mpr ⟨p, hp, rfl⟩)
      rcases ih hnd2 p hp with ⟨w, hw1, hw2⟩
      refine ⟨w, ?_, hw2⟩
      rw [listLookup, if_neg (by simpa using hbp)]
      exact hw1

theorem litEq_self {v : JSValue} (h : v ∈ AM.literalsArbitrary) : litEq v v = true := by
  simp only [AM.literalsArbitrary, ArbUnion, mem_fcOneof] at h
  obtain ⟨g, hg, hv⟩ := h
  simp only [List.mem_cons, List.not_mem_nil, or_false] at hg
  rcases hg with rfl | rfl | rfl | rfl
  · obtain ⟨s, rfl⟩ := hv
    simp [litEq]
  · obtain ⟨n, rfl⟩ := hv
    simp [litEq]
  · obtain ⟨b, rfl⟩ := hv
    simp [litEq]
  · rw [mem_fcConstant] at hv
    subst hv
    rfl

theorem literal_mutation_spec {values : List JSValue} {v : JSValue}
    (hv : v ∈ (AM.literal values).mutation) :
    v ∈ AM.literalsArbitrary ∧ ∀ a ∈ values, v ≠ a := by
  have hv2 : v ∈ AM.literalsArbitrary ∧ guardLiteral values v = false := hv
  obtain ⟨hmem, hguard⟩ := hv2
  refine ⟨hmem, ?_⟩
  intro a ha heq
  rw [guardLiteral, List.any_eq_false] at hguard
  have h1 : ¬ litEq a v = true := hguard a ha
  rw [heq] at hmem h1
  exact h1 (litEq_self hmem)

/-- Claim C6: every draw from arrayOf(item).corrupted is a non-empty sequence
whose every element is drawn from item.corrupted; every draw from
mapOf(codomain).corrupted is a non-empty string-keyed mapping whose every value
is drawn from codomain.corrupted; an empty container is rejected by the filter
and never produced. -/
theorem C6_container_corruption :
    (∀ items : ArbitraryMutation, ∀ v ∈ (AM.array items).mutation,
        ∃ l, v = JSValue.arr l ∧ l ≠ [] ∧ ∀ x ∈ l, x ∈ items.mutation) ∧
      (∀ codomain : ArbitraryMutation, ∀ v ∈ (AM.record codomain).mutation,
        ∃ fs : List (String × JSValue), v = JSValue.obj fs ∧ fs ≠ [] ∧
          ∀ kv ∈ fs, kv.2 ∈ codomain.mutation) ∧
      (∀ items : ArbitraryMutation, JSValue.arr [] ∉ (AM.array items).mutation) ∧
      (∀ codomain : ArbitraryMutation, JSValue.obj [] ∉ (AM.record codomain).mutation) := by
  refine ⟨?_, ?_, ?_, ?_⟩
  · intro items v hv
    simp only [AM.array, AM.make_mutation, mem_fcFilter, mem_ArbArray] at hv
    obtain ⟨⟨l, rfl, hall⟩, hne⟩ := hv
    exact ⟨l, rfl, by simpa [isNonEmptyA] using hne, hall⟩
  · intro codomain v hv
    simp only [AM.record, AM.make_mutation, mem_fcFilter, mem_ArbRecord] at hv
    obtain ⟨⟨fs, rfl, hnd, hall⟩, hne⟩ := hv
    refine ⟨fs, rfl, ?_, hall⟩
    have hlen : (List.map Prod.fst fs).length > 0 := by simpa [nonEmpty, objKeys] using hne
    intro hc
    rw [hc] at hlen
    simp at hlen
  · intro items hc
    simp only [AM.array, AM.make_mutation, mem_fcFilter] at hc
    simpa [isNonEmptyA] using hc.2
  · intro codomain hc
    simp only [AM.record, AM.make_mutation, mem_fcFilter] at hc
    have := hc.2
    simp [nonEmpty, objKeys] at this
/-- Witness for C6 at a concrete one-element corrupted array of
arrayOf(string). -/
theorem C6_container_corruption_witness :
    JSValue.arr [JSValue.num 0] ∈ (AM.array AM.string).mutation ∧
      ∃ l, JSValue.arr [JSValue.num 0] = JSValue.arr l ∧ l ≠ [] ∧
        ∀ x ∈ l, x ∈ AM.string.mutation := by
  have hm : JSValue.arr [JSValue.num 0] ∈ (AM.array AM.string).mutation := by
    simp only [AM.array, AM.make_mutation, mem_fcFilter, mem_ArbArray]
    refine ⟨⟨[JSValue.num 0], rfl, ?_⟩, by simp [isNonEmptyA]⟩
    intro x hx
    rw [List.mem_singleton] at hx
    subst hx
    exact mem_fcOneof.mpr ⟨ArbNumber, by simp, ⟨0, rfl⟩⟩
  exact ⟨hm, C6_container_corruption.1 AM.string _ hm⟩

/-- Claim C7: every draw from literal(values).corrupted comes from the literal
universe (string, number, boolean, null) and is never equal to any allowed
value. -/
theorem C7_literal_corruption (values : List JSValue) (v : JSValue)
    (hv : v ∈ (AM.literal values).mutation) :
    v ∈ AM.literalsArbitrary ∧ ∀ a ∈ values, v ≠ a :=
  literal_mutation_spec hv

/-- Witness for C7: literal(1, "a", true).corrupted can draw "b", which is in
the literal universe and differs from 1, "a" and true. -/
theorem C7_literal_corruption_witness :
    JSValue.str "b" ∈
        (AM.literal [JSValue.num 1, JSValue.str "a", JSValue.bool true]).mutation ∧
      (JSValue.str "b" ∈ AM.literalsArbitrary ∧
        ∀ a ∈ [JSValue.num 1, JSValue.str "a", JSValue.bool true], JSValue.str "b" ≠ a) := by
  have hm : JSValue.str "b" ∈
      (AM.literal [JSValue.num 1, JSValue.str "a", JSValue.bool true]).mutation := by
    refine mem_fcFilter.mpr ⟨?_, ?_⟩
    · exact mem_fcOneof.mpr ⟨ArbString, by simp, ⟨"b", rfl⟩⟩
    · decide
  exact ⟨hm, C7_literal_corruption _ _ hm⟩

/-- Claim C8: string.corrupted never draws a string (only numbers or
booleans), number.corrupted never draws a number, and boolean.corrupted has
the literal strings "true", "false", "0", "1" in its support. -/
theorem C8_primitive_corruption :
    (∀ v ∈ AM.string.mutation,
        (¬ ∃ s, v = JSValue.str s) ∧
          ((∃ n, v = JSValue.num n) ∨ ∃ b, v = JSValue.bool b)) ∧
      (∀ v ∈ AM.number.mutation, ¬ ∃ n, v = JSValue.num n) ∧
      (∀ v ∈ AM.boolean.mutation, ¬ ∃ b, v = JSValue.bool b) ∧
      JSValue.str "true" ∈ AM.boolean.mutation ∧
      JSValue.str "false" ∈ AM.boolean.mutation ∧
      JSValue.str "0" ∈ AM.boolean.mutation ∧
      JSValue.str "1" ∈ AM.boolean.mutation := by
  refine ⟨?_, ?_, ?_, ?_, ?_, ?_, ?_⟩
  · intro v hv
    simp only [AM.string, AM.make_mutation, mem_fcOneof] at hv
    obtain ⟨g, hg, hvg⟩ := hv
    simp only [List.mem_cons, List.not_mem_nil, or_false] at hg
    rcases hg with rfl | rfl
    · obtain ⟨n, rfl⟩ := hvg
      exact ⟨by simp, Or.inl ⟨n, rfl⟩⟩
    · obtain ⟨b, rfl⟩ := hvg
      exact ⟨by simp, Or.inr ⟨b, rfl⟩⟩
  · intro v hv
    simp only [AM.number, AM.make_mutation, mem_fcOneof] at hv
    obtain ⟨g, hg, hvg⟩ := hv
    simp only [List.mem_cons, List.not_mem_nil, or_false] at hg
    rcases hg with rfl | rfl
    · obtain ⟨s, rfl⟩ := hvg
      simp
    · obtain ⟨b, rfl⟩ := hvg
      simp
  · intro v hv
    simp only [AM.boolean, AM.make_mutation, mem_fcOneof] at hv
    obtain ⟨g, hg, hvg⟩ := hv
    simp only [List.mem_cons, List.not_mem_nil, or_false] at hg
    rcases hg with rfl | rfl | rfl
    · obtain ⟨s, rfl⟩ := hvg
      simp
    · obtain ⟨n, rfl⟩ := hvg
      simp
    · rw [mem_fcOneof] at hvg
      obtain ⟨g2, hg2, hvg2⟩ := hvg
      simp only [List.mem_cons, List.not_mem_nil, or_false] at hg2
      rcases hg2 with rfl | rfl | rfl | rfl <;>
        · rw [mem_fcConstant] at hvg2
          subst hvg2
          simp
  · exact mem_fcOneof.mpr ⟨ArbString, by simp, ⟨"true", rfl⟩⟩
  · exact mem_fcOneof.mpr ⟨ArbString, by simp, ⟨"false", rfl⟩⟩
  · exact mem_fcOneof.mpr ⟨ArbString, by simp, ⟨"0", rfl⟩⟩
  · exact mem_fcOneof.mpr ⟨ArbString, by simp, ⟨"1", rfl⟩⟩
/-- Witness for C8 at the concrete draw 0 from string.corrupted. -/
theorem C8_primitive_corruption_witness :
    JSValue.num 0 ∈ AM.string.mutation ∧ ¬ ∃ s, JSValue.num 0 = JSValue.str s := by
  have hm : JSValue.num 0 ∈ AM.string.mutation :=
    mem_fcOneof.mpr ⟨ArbNumber, by simp, ⟨0, rfl⟩⟩
  exact ⟨hm, (C8_primitive_corruption.1 _ hm).1⟩

/-- Claim C1 (counterexample): union(string, number).corrupted can draw the
number 0 — a structurally valid instance of the union node itself, so a
corrupted draw is not always invalid for its node. -/
theorem C1_counterexample :
    JSValue.num 0 ∈ (AM.union [AM.string, AM.number]).mutation ∧
      JSValue.num 0 ∈ (AM.union [AM.string, AM.number]).arbitrary := by
  constructor
  · exact mem_ArbUnion.mpr
      ⟨AM.string.mutation, by simp,
        mem_fcOneof.mpr ⟨ArbNumber, by simp, ⟨0, rfl⟩⟩⟩
  · exact mem_ArbUnion.mpr ⟨ArbNumber, by simp [AM.number], ⟨0, rfl⟩⟩

/-- Claim C1 (amended): corrupted draws of literal and primitive nodes are
never structurally valid for their node; for union(members) every corrupted
draw is exactly a corrupted draw of one member, and for nullable(inner) it is
either the empty-object placeholder or a corrupted draw of the inner node —
such composite draws may incidentally be valid instances of the node. -/
theorem C1_corruption_policy :
    (∀ v ∈ AM.string.mutation, v ∉ AM.string.arbitrary) ∧
      (∀ v ∈ AM.number.mutation, v ∉ AM.number.arbitrary) ∧
      (∀ v ∈ AM.boolean.mutation, v ∉ AM.boolean.arbitrary) ∧
      (∀ v ∈ AM.UnknownArray.mutation, v ∉ AM.UnknownArray.arbitrary) ∧
      (∀ v ∈ AM.UnknownRecord.mutation, v ∉ AM.UnknownRecord.arbitrary) ∧
      (∀ values : List JSValue, ∀ v ∈ (AM.literal values).mutation,
        v ∉ (AM.literal values).arbitrary) ∧
      (∀ members : List ArbitraryMutation, ∀ v : JSValue,
        v ∈ (AM.union members).mutation ↔ ∃ am ∈ members, v ∈ am.mutation) ∧
      (∀ o : ArbitraryMutation, ∀ v : JSValue,
        v ∈ (AM.nullable o).mutation ↔ (v = JSValue.obj [] ∨ v ∈ o.mutation)) := by
  refine ⟨?_, ?_, ?_, ?_, ?_, ?_, ?_, ?_⟩
  · intro v hv
    simp only [AM.string, AM.make_mutation, mem_fcOneof] at hv
    obtain ⟨g, hg, hvg⟩ := hv
    simp only [List.mem_cons, List.not_mem_nil, or_false] at hg
    rcases hg with rfl | rfl
    · obtain ⟨n, rfl⟩ := hvg
      simp [AM.string]
    · obtain ⟨b, rfl⟩ := hvg
      simp [AM.string]
  · intro v hv
    simp only [AM.number, AM.make_mutation, mem_fcOneof] at hv
    obtain ⟨g, hg, hvg⟩ := hv
    simp only [List.mem_cons, List.not_mem_nil, or_false] at hg
    rcases hg with rfl | rfl
    · obtain ⟨s, rfl⟩ := hvg
      simp [AM.number]
    · obtain ⟨b, rfl⟩ := hvg
      simp [AM.number]
  · intro v hv
    simp only [AM.boolean, AM.make_mutation, mem_fcOneof] at hv
    obtain ⟨g, hg, hvg⟩ := hv
    simp only [List.mem_cons, List.not_mem_nil, or_false] at hg
    rcases hg with rfl | rfl | rfl
    · obtain ⟨s, rfl⟩ := hvg
      simp [AM.boolean]
    · obtain ⟨n, rfl⟩ := hvg
      simp [AM.boolean]
    · rw [mem_fcOneof] at hvg
      obtain ⟨g2, hg2, hvg2⟩ := hvg
      simp only [List.mem_cons, List.not_mem_nil, or_false] at hg2
      rcases hg2 with rfl | rfl | rfl | rfl <;>
        · rw [mem_fcConstant] at hvg2
          subst hvg2
          simp [AM.boolean]
  · intro v hv
    obtain ⟨fs, rfl, hnd⟩ := hv
    simp [AM.UnknownArray]
  · intro v hv
    obtain ⟨l, rfl⟩ := hv
    simp [AM.UnknownRecord]
  · intro values v hv hc
    have h2 := (literal_mutation_spec hv).2
    exact h2 v hc rfl
  · intro members v
    constructor
    · intro hv
      obtain ⟨g, hg, hvg⟩ := mem_ArbUnion.mp hv
      obtain ⟨am, ham, rfl⟩ := List.mem_map.mp hg
      exact ⟨am, ham, hvg⟩
    · rintro ⟨am, ham, hv⟩
      exact mem_ArbUnion.mpr ⟨am.mutation, List.mem_map.mpr ⟨am, ham, rfl⟩, hv⟩
  · intro o v
    constructor
    · intro hv
      obtain ⟨g, hg, hvg⟩ := mem_ArbUnion.mp hv
      simp only [List.map_cons, List.map_nil, List.mem_cons, List.not_mem_nil, or_false] at hg
      rcases hg with rfl | rfl
      · exact Or.inl (mem_fcConstant.mp hvg)
      · exact Or.inr hvg
    · rintro (rfl | hv)
      · exact mem_ArbUnion.mpr ⟨AM.nullMutation.mutation, by simp, mem_fcConstant.mpr rfl⟩
      · exact mem_ArbUnion.mpr ⟨o.mutation, by simp, hv⟩
/-- Witness for C1 (amended) at the concrete draw 3 from string.corrupted. -/
theorem C1_corruption_policy_witness :
    JSValue.num 3 ∈ AM.string.mutation ∧ JSValue.num 3 ∉ AM.string.arbitrary := by
  have hm : JSValue.num 3 ∈ AM.string.mutation :=
    mem_fcOneof.mpr ⟨ArbNumber, by simp, ⟨3, rfl⟩⟩
  exact ⟨hm, C1_corruption_policy.1 _ hm⟩

theorem mem_oneof_constants {α : Type} {ks : List α} {k : α} :
    k ∈ fcOneof (ks.map fcConstant) ↔ k ∈ ks := by
  simp only [mem_fcOneof, List.mem_map]
  constructor
  · rintro ⟨g, ⟨x, hx, rfl⟩, hk⟩
    rw [mem_fcConstant] at hk
    subst hk
    exact hx
  · intro hk
    exact ⟨fcConstant k, ⟨k, hk, rfl⟩, mem_fcConstant.mpr rfl⟩

theorem map_fst_fields (P : List (String × ArbitraryMutation)) :
    (P.map fun p => (p.1, p.2.arbitrary)).map Prod.fst = P.map Prod.fst := by
  rw [List.map_map]
  rfl

/-- Claim C3 (counterexample): with a union-typed field, the corrupted field
value can incidentally be valid for the field: the corrupted generator of
type(x: union(string, number)) can draw the object x: 0, which is a fully
valid instance of the node, so the corrupted field is not always invalid for
its field type. -/
theorem C3_counterexample :
    JSValue.obj [("x", JSValue.num 0)] ∈
        (AM.type [("x", AM.union [AM.string, AM.number])]).mutation ∧
      JSValue.obj [("x", JSValue.num 0)] ∈
        (AM.type [("x", AM.union [AM.string, AM.number])]).arbitrary := by
  constructor
  · rw [AM.type_eq_of_ne (by simp), AM.make_mutation]
    refine mem_fcChain.mpr ⟨JSValue.obj [("x", JSValue.str "s")], ?_, ?_⟩
    · refine mem_ArbType.mpr ⟨[("x", JSValue.str "s")], rfl, ?_⟩
      exact List.Forall₂.cons
        ⟨rfl, mem_ArbUnion.mpr ⟨ArbString, by simp [AM.string], ⟨"s", rfl⟩⟩⟩
        List.Forall₂.nil
    · refine mem_fcChain.mpr ⟨"x", mem_oneof_constants.mpr (by simp), ?_⟩
      refine mem_fcMap.mpr ⟨JSValue.num 0, ?_, rfl⟩
      exact mem_ArbUnion.mpr
        ⟨AM.string.mutation, by simp, mem_fcOneof.mpr ⟨ArbNumber, by simp, ⟨0, rfl⟩⟩⟩
  · refine mem_ArbType.mpr ⟨[("x", JSValue.num 0)], rfl, ?_⟩
    exact List.Forall₂.cons
      ⟨rfl, mem_ArbUnion.mpr ⟨ArbNumber, by simp [AM.number], ⟨0, rfl⟩⟩⟩
      List.Forall₂.nil

/-- Claim C3 (amended): for every non-empty field map with distinct keys,
every draw from type(properties).corrupted has exactly the declared key set;
one declared key — chosen from exactly the declared keys — holds a draw from
that field's own corrupted generator (which may incidentally be valid for the
field), and every other field holds a value from its field's valid generator;
conversely, replacing any one declared field of any valid base draw by any
draw from that field's corrupted generator is drawable. -/
theorem C3_single_fault_injection (P : List (String × ArbitraryMutation))
    (hne : P ≠ []) (hnd : (P.map Prod.fst).Nodup) :
    (∀ v ∈ (AM.type P).mutation,
        objKeys v = P.map Prod.fst ∧
          ∃ k ∈ P.map Prod.fst, ∃ m ∈ AM.mutLookup P k,
            objLookup v k = some m ∧
              ∀ p ∈ P, p.1 ≠ k → ∃ w, objLookup v p.1 = some w ∧ w ∈ p.2.arbitrary) ∧
      (∀ a ∈ ArbType (P.map fun p => (p.1, p.2.arbitrary)), ∀ k ∈ P.map Prod.fst,
        ∀ m ∈ AM.mutLookup P k, objSet a k m ∈ (AM.type P).mutation) := by
  constructor
  · intro v hv
    rw [AM.type_eq_of_ne hne, AM.make_mutation] at hv
    obtain ⟨a, ha, hv2⟩ := mem_fcChain.mp hv
    obtain ⟨k, hk, hv3⟩ := mem_fcChain.mp hv2
    obtain ⟨m, hm, rfl⟩ := mem_fcMap.mp hv3
    rw [mem_oneof_constants] at hk
    obtain ⟨l, rfl, hf⟩ := mem_ArbType.mp ha
    have hkeys : l.map Prod.fst = P.map Prod.fst := by
      rw [forall2_map_fst hf, map_fst_fields]
    have hkl : k ∈ l.map Prod.fst := by rw [hkeys]; exact hk
    have hset : objSet (JSValue.obj l) k m = JSValue.obj (setField l k m) := rfl
    constructor
    · rw [hset]
      show (setField l k m).map Prod.fst = P.map Prod.fst
      rw [setField_map_fst_of_mem hkl, hkeys]
    · refine ⟨k, hk, m, hm, ?_, ?_⟩
      · rw [hset]
        exact listLookup_setField_self
      · intro p hp hpk
        have hndf : ((P.map fun p => (p.1, p.2.arbitrary)).map Prod.fst).Nodup := by
          rw [map_fst_fields]; exact hnd
        obtain ⟨w, hw1, hw2⟩ :=
          forall2_lookup hf hndf (p.1, p.2.arbitrary) (List.mem_map.mpr ⟨p, hp, rfl⟩)
        refine ⟨w, ?_, hw2⟩
        rw [hset]
        show listLookup (setField l k m) p.1 = some w
        rw [listLookup_setField_ne hpk]
        exact hw1
  · intro a ha k hk m hm
    rw [AM.type_eq_of_ne hne, AM.make_mutation]
    exact mem_fcChain.mpr
      ⟨a, ha, mem_fcChain.mpr
        ⟨k, mem_oneof_constants.mpr hk, mem_fcMap.mpr ⟨m, hm, rfl⟩⟩⟩
/-- Witness for C3 (amended) at the one-field map (a : string), base draw
obj a: "s", corrupted field value 7. -/
theorem C3_single_fault_injection_witness :
    ([("a", AM.string)] : List (String × ArbitraryMutation)) ≠ [] ∧
      ((([("a", AM.string)] : List (String × ArbitraryMutation)).map Prod.fst).Nodup) ∧
      JSValue.obj [("a", JSValue.num 7)] ∈ (AM.type [("a", AM.string)]).mutation := by
  refine ⟨by simp, by simp, ?_⟩
  have h := C3_single_fault_injection [("a", AM.string)] (by simp) (by simp)
  have ha : JSValue.obj [("a", JSValue.str "s")] ∈
      ArbType ([("a", AM.string)].map fun p => (p.1, p.2.arbitrary)) :=
    mem_ArbType.mpr ⟨[("a", JSValue.str "s")], rfl,
      List.Forall₂.cons ⟨rfl, ⟨"s", rfl⟩⟩ List.Forall₂.nil⟩
  have hm : JSValue.num 7 ∈ AM.mutLookup [("a", AM.string)] "a" :=
    mem_fcOneof.mpr ⟨ArbNumber, by simp, ⟨7, rfl⟩⟩
  exact h.2 _ ha "a" (by simp) _ hm

/-- Claim C10: for every tuple of arity at least one, every draw from
tuple(components).corrupted is a sequence of length exactly n derived from a
valid base draw by replacing the single chosen index (ranging over all n
positions) with a draw from that component's own corrupted generator; every
other position equals the corresponding position of the base draw. -/
theorem C10_tuple_slot_replacement (C : List ArbitraryMutation) (hne : C ≠ [])
    (v : JSValue) (hv : v ∈ (AM.tuple C).mutation) :
    ∃ t, JSValue.arr t ∈ ArbTuple (C.map fun c => c.arbitrary) ∧
      ∃ i < C.length, ∃ m ∈ AM.mutIdx C i,
        v = JSValue.arr (t.set i m) ∧
          (t.set i m).length = C.length ∧
          ∀ j, j ≠ i → (t.set i m)[j]? = t[j]? := by
  rw [AM.tuple_eq_of_ne hne, AM.make_mutation] at hv
  obtain ⟨tv, htv, hv2⟩ := mem_fcChain.mp hv
  obtain ⟨i, hi, hv3⟩ := mem_fcChain.mp hv2
  obtain ⟨m, hm, rfl⟩ := mem_fcMap.mp hv3
  rw [mem_oneof_constants, List.mem_range] at hi
  obtain ⟨t, rfl, hf⟩ := mem_ArbTuple.mp htv
  have hlen : t.length = C.length := by
    rw [hf.length_eq, List.length_map]
  refine ⟨t, mem_ArbTuple.mpr ⟨t, rfl, hf⟩, i, hi, m, hm, rfl, ?_, ?_⟩
  · rw [List.length_set, hlen]
  · intro j hj
    exact List.getElem?_set_ne (fun hc => hj hc.symm)
/-- Witness for C10 at the one-component tuple (string), base draw arr "s",
corrupted index 0 replaced by 5. -/
theorem C10_tuple_slot_replacement_witness :
    ([AM.string] : List ArbitraryMutation) ≠ [] ∧
      ∃ t, JSValue.arr t ∈ ArbTuple ([AM.string].map fun c => c.arbitrary) ∧
        ∃ i < ([AM.string] : List ArbitraryMutation).length, ∃ m ∈ AM.mutIdx [AM.string] i,
          JSValue.arr [JSValue.num 5] = JSValue.arr (t.set i m) ∧
            (t.set i m).length = ([AM.string] : List ArbitraryMutation).length ∧
            ∀ j, j ≠ i → (t.set i m)[j]? = t[j]? := by
  refine ⟨by simp, ?_⟩
  have hv : JSValue.arr [JSValue.num 5] ∈ (AM.tuple [AM.string]).mutation := by
    rw [AM.tuple_eq_of_ne (by simp), AM.make_mutation]
    refine mem_fcChain.mpr ⟨JSValue.arr [JSValue.str "s"], ?_, ?_⟩
    · exact mem_ArbTuple.mpr ⟨[JSValue.str "s"], rfl,
        List.Forall₂.cons ⟨"s", rfl⟩ List.Forall₂.nil⟩
    · refine mem_fcChain.mpr ⟨0, mem_oneof_constants.mpr (by simp), ?_⟩
      exact mem_fcMap.mpr
        ⟨JSValue.num 5, mem_fcOneof.mpr ⟨ArbNumber, by simp, ⟨5, rfl⟩⟩, rfl⟩
  exact C10_tuple_slot_replacement [AM.string] (by simp) _ hv

/-- Claim C2 (counterexample): on partial(a: boolean, b: boolean), the code can
draw the non-empty valid instance obj b: true, choose the absent declared key
a, and append it corrupted, yielding obj [b: true, a: 0] — a value the
claimed present-keys-only mechanism (partialSpecCorrupted) can never produce,
since its results keep a key list that is a sublist of the declared order
[a, b]. -/
theorem C2_counterexample :
    JSValue.obj [("b", JSValue.bool true), ("a", JSValue.num 0)] ∈
        (AM.partialC [("a", AM.boolean), ("b", AM.boolean)]).mutation ∧
      JSValue.obj [("b", JSValue.bool true), ("a", JSValue.num 0)] ∉
        partialSpecCorrupted [("a", AM.boolean), ("b", AM.boolean)] := by
  constructor
  · rw [AM.partialC_eq_of_ne (by simp), AM.make_mutation]
    refine mem_fcChain.mpr ⟨JSValue.obj [("b", JSValue.bool true)], ?_, ?_⟩
    · refine mem_fcFilter.mpr ⟨?_, ?_⟩
      · refine mem_ArbPartialObj.mpr
          ⟨[("b", JSValue.bool true)], [("b", AM.boolean.arbitrary)], rfl, ?_, ?_⟩
        · exact List.Sublist.cons _ (List.Sublist.refl _)
        · exact List.Forall₂.cons ⟨rfl, ⟨true, rfl⟩⟩ List.Forall₂.nil
      · show (objKeys (JSValue.obj [("b", JSValue.bool true)])).length > 0
        simp [objKeys]
    · refine mem_fcChain.mpr ⟨"a", mem_oneof_constants.mpr (by simp), ?_⟩
      refine mem_fcMap.mpr ⟨JSValue.num 0, ?_, rfl⟩
      exact mem_fcOneof.mpr ⟨ArbNumber, by simp, ⟨0, rfl⟩⟩
  · intro hv
    obtain ⟨a, ha, hv2⟩ := mem_fcChain.mp hv
    obtain ⟨k, hk, hv3⟩ := mem_fcChain.mp hv2
    obtain ⟨m, hm, heq⟩ := mem_fcMap.mp hv3
    obtain ⟨hap, hane⟩ := mem_fcFilter.mp ha
    obtain ⟨l, sub, rfl, hsub, hf⟩ := mem_ArbPartialObj.mp hap
    rw [mem_oneof_constants] at hk
    have hkl : k ∈ l.map Prod.fst := hk
    have hset : objSet (JSValue.obj l) k m = JSValue.obj (setField l k m) := rfl
    rw [hset] at heq
    have hkeys : (setField l k m).map Prod.fst = l.map Prod.fst :=
      setField_map_fst_of_mem hkl
    have hinj : [("b", JSValue.bool true), ("a", JSValue.num 0)] = setField l k m :=
      JSValue.obj.inj heq
    have hbad : (["b", "a"] : List String) = l.map Prod.fst := by
      rw [← hkeys, ← hinj]
      rfl
    have hsubk : List.Sublist (l.map Prod.fst) (["a", "b"] : List String) := by
      rw [forall2_map_fst hf]
      have h2 := List.Sublist.map Prod.fst hsub
      simpa using h2
    rw [← hbad] at hsubk
    exact (by decide : ¬ List.Sublist (["b", "a"] : List String) ["a", "b"]) hsubk

/-- Claim C2 (amended): for every non-empty field map,
partial(properties).corrupted first redraws the valid instance until it is
non-empty, then chooses one field key uniformly at random among all the
declared field keys — not only the keys present in the instance — and sets
that field to a draw from that field's own corrupted generator: the value is
replaced in place when the key is present, and the field is appended when the
key is absent; conversely, every such combination is drawable. -/
theorem C2_partial_corruption (P : List (String × ArbitraryMutation)) (hne : P ≠ []) :
    (∀ v ∈ (AM.partialC P).mutation,
        ∃ a k m, a ∈ ArbPartialObj (P.map fun p => (p.1, p.2.arbitrary)) ∧ nonEmpty a ∧
          k ∈ P.map Prod.fst ∧ m ∈ AM.mutLookup P k ∧ v = objSet a k m ∧
          (k ∈ objKeys a → objKeys v = objKeys a) ∧
          (k ∉ objKeys a → objKeys v = objKeys a ++ [k])) ∧
      (∀ a ∈ ArbPartialObj (P.map fun p => (p.1, p.2.arbitrary)), nonEmpty a →
        ∀ k ∈ P.map Prod.fst, ∀ m ∈ AM.mutLookup P k,
          objSet a k m ∈ (AM.partialC P).mutation) := by
  constructor
  · intro v hv
    rw [AM.partialC_eq_of_ne hne, AM.make_mutation] at hv
    obtain ⟨a, ha, hv2⟩ := mem_fcChain.mp hv
    obtain ⟨k, hk, hv3⟩ := mem_fcChain.mp hv2
    obtain ⟨m, hm, rfl⟩ := mem_fcMap.mp hv3
    obtain ⟨hap, hane⟩ := mem_fcFilter.mp ha
    rw [mem_oneof_constants] at hk
    obtain ⟨l, sub, rfl, hsub, hf⟩ := mem_ArbPartialObj.mp hap
    refine ⟨JSValue.obj l, k, m, hap, hane, hk, hm, rfl, ?_, ?_⟩
    · intro hka
      show (setField l k m).map Prod.fst = l.map Prod.fst
      exact setField_map_fst_of_mem hka
    · intro hka
      show (setField l k m).map Prod.fst = l.map Prod.fst ++ [k]
      exact setField_map_fst_of_not_mem hka
  · intro a ha hane k hk m hm
    rw [AM.partialC_eq_of_ne hne, AM.make_mutation]
    exact mem_fcChain.mpr
      ⟨a, mem_fcFilter.mpr ⟨ha, hane⟩,
        mem_fcChain.mpr ⟨k, mem_oneof_constants.mpr hk, mem_fcMap.mpr ⟨m, hm, rfl⟩⟩⟩
/-- Witness for C2 (amended) at the one-field map (a : boolean), instance
obj a: true, key a, corrupted value 0. -/
theorem C2_partial_corruption_witness :
    ([("a", AM.boolean)] : List (String × ArbitraryMutation)) ≠ [] ∧
      JSValue.obj [("a", JSValue.num 0)] ∈ (AM.partialC [("a", AM.boolean)]).mutation := by
  refine ⟨by simp, ?_⟩
  have h := C2_partial_corruption [("a", AM.boolean)] (by simp)
  have ha : JSValue.obj [("a", JSValue.bool true)] ∈
      ArbPartialObj ([("a", AM.boolean)].map fun p => (p.1, p.2.arbitrary)) :=
    mem_ArbPartialObj.mpr ⟨[("a", JSValue.bool true)], [("a", AM.boolean.arbitrary)], rfl,
      List.Sublist.refl _, List.Forall₂.cons ⟨rfl, ⟨true, rfl⟩⟩ List.Forall₂.nil⟩
  have hane : nonEmpty (JSValue.obj [("a", JSValue.bool true)]) := by
    show (objKeys (JSValue.obj [("a", JSValue.bool true)])).length > 0
    simp [objKeys]
  have hm : JSValue.num 0 ∈ AM.mutLookup [("a", AM.boolean)] "a" :=
    mem_fcOneof.mpr ⟨ArbNumber, by simp, ⟨0, rfl⟩⟩
  exact h.2 _ ha hane "a" (by simp) _ hm

theorem listLookup_eq_find? {fs : List (String × JSValue)} {k : String} :
    listLookup fs k = (fs.find? (fun kv => kv.1 == k)).map Prod.snd := by
  induction fs with
  | nil => rfl
  | cons kv fs ih =>
    by_cases hk : kv.1 = k
    · simp [listLookup, hk]
    · simp [listLookup, hk, ih]

theorem lookup_isSome_of_mem {fs : List (String × JSValue)} {k : String}
    (h : k ∈ fs.map Prod.fst) : (listLookup fs k).isSome = true := by
  induction fs with
  | nil => simp at h
  | cons kv fs ih =>
    by_cases hk : kv.1 = k
    · simp [listLookup, hk]
    · rw [List.map_cons] at h
      rcases List.mem_cons.mp h with h2 | h2
      · exact absurd h2.symm hk
      · simp [listLookup, hk, ih h2]

theorem lookup_append_isSome {xs ys : List (String × JSValue)} {k : String}
    (h : (listLookup xs k).isSome = true) :
    listLookup (xs ++ ys) k = listLookup xs k := by
  induction xs with
  | nil => simp [listLookup] at h
  | cons kv xs ih =>
    by_cases hk : kv.1 = k
    · simp [listLookup, hk]
    · rw [listLookup, if_neg (by simpa using hk)] at h
      simp [listLookup, hk, ih h]

theorem lookup_append_none {xs ys : List (String × JSValue)} {k : String}
    (h : k ∉ xs.map Prod.fst) : listLookup (xs ++ ys) k = listLookup ys k := by
  induction xs with
  | nil => rfl
  | cons kv xs ih =>
    have hk : ¬ kv.1 = k := fun hc => h (by simp [hc])
    have h2 : k ∉ xs.map Prod.fst := fun hc => h (by simp [hc])
    simp [listLookup, hk, ih h2]

theorem lookup_filter_keep {fs : List (String × JSValue)} {k : String}
    {p : String × JSValue → Bool} (h : ∀ kv ∈ fs, kv.1 = k → p kv = true) :
    listLookup (fs.filter p) k = listLookup fs k := by
  induction fs with
  | nil => rfl
  | cons kv fs ih =>
    have hrec := ih (fun kv2 h2 => h kv2 (List.mem_cons_of_mem _ h2))
    by_cases hp : p kv = true
    · rw [List.filter_cons_of_pos hp]
      by_cases hk : kv.1 = k
      · simp [listLookup, hk]
      · simp [listLookup, hk, hrec]
    · have hk : ¬ kv.1 = k := fun hc => hp (h kv (List.mem_cons_self _ _) hc)
      rw [List.filter_cons_of_neg (by simpa using hp)]
      simp [listLookup, hk, hrec]

theorem merge_map_fst {fa fb : List (String × JSValue)} :
    ((fa.map fun kv =>
        match fb.find? (fun kv2 => kv2.1 == kv.1) with
        | some kv2 => (kv.1, kv2.2)
        | none => kv).map Prod.fst) = fa.map Prod.fst := by
  rw [List.map_map]
  refine List.map_congr_left ?_
  intro kv _
  cases hfind : fb.find? (fun kv2 => kv2.1 == kv.1) with
  | none => simp [Function.comp, hfind]
  | some kv2 => simp [Function.comp, hfind]

theorem lookup_mapped_merge {fa fb : List (String × JSValue)} {k : String}
    (hfa : k ∈ fa.map Prod.fst) (hfb : k ∈ fb.map Prod.fst) :
    listLookup
        (fa.map fun kv =>
          match fb.find? (fun kv2 => kv2.1 == kv.1) with
          | some kv2 => (kv.1, kv2.2)
          | none => kv) k =
      listLookup fb k := by
  induction fa with
  | nil => simp at hfa
  | cons kv fa ih =>
    by_cases hk1 : kv.1 = k
    · have hsome : ∃ kv2, fb.find? (fun kv2 => kv2.1 == kv.1) = some kv2 := by
        rw [← Option.isSome_iff_exists, List.find?_isSome]
        obtain ⟨x, hx, hxk⟩ := List.mem_map.mp hfb
        exact ⟨x, hx, by simp [hxk, hk1]⟩
      obtain ⟨kv2, hfind⟩ := hsome
      rw [List.map_cons, hfind]
      nth_rewrite 2 [listLookup_eq_find?]
      rw [hk1] at hfind
      rw [hfind]
      simp [listLookup, hk1]
    · rw [List.map_cons] at hfa ⊢
      rcases List.mem_cons.mp hfa with h2 | h2
      · exact absurd h2.symm hk1
      · cases hfind : fb.find? (fun kv2 => kv2.1 == kv.1) with
        | none => simp [listLookup, hk1, ih h2]
        | some kv2 => simp [listLookup, hk1, ih h2]

theorem lookup_merge_of_mem_right {fa fb : List (String × JSValue)} {k : String}
    (hk : k ∈ fb.map Prod.fst) :
    listLookup (mergeFields fa fb) k = listLookup fb k := by
  rw [mergeFields]
  by_cases hfa : k ∈ fa.map Prod.fst
  · have h6 := lookup_mapped_merge hfa hk
    have hsome : (listLookup
        (fa.map fun kv =>
          match fb.find? (fun kv2 => kv2.1 == kv.1) with
          | some kv2 => (kv.1, kv2.2)
          | none => kv) k).isSome = true := by
      rw [h6]
      exact lookup_isSome_of_mem hk
    rw [lookup_append_isSome hsome, h6]
  · rw [lookup_append_none (by rw [merge_map_fst]; exact hfa)]
    apply lookup_filter_keep
    intro kv2 _ hkey
    have hany : (fa.any fun kv => kv.1 == kv2.1) = false := by
      rw [List.any_eq_false]
      intro x hx hc
      rw [hkey] at hc
      exact hfa (List.mem_map.mpr ⟨x, hx, by simpa using hc⟩)
    rw [hany]
    rfl

/-- Claim C9 (counterexample): on intersection(type(a: string),
type(a: number)), merging the corrupted draws obj a: true (left) and
obj a: "x" (right) yields obj a: "x", because the right side overrides the
shared key — and that merge is structurally valid for the left member, so the
corrupted intersection draw does not fail both sides. -/
theorem C9_counterexample :
    JSValue.obj [("a", JSValue.str "x")] ∈
        (AM.intersection (AM.type [("a", AM.string)])
          (AM.type [("a", AM.number)])).mutation ∧
      JSValue.obj [("a", JSValue.str "x")] ∈ (AM.type [("a", AM.string)]).arbitrary := by
  constructor
  · refine mem_ArbIntersection.mpr
      ⟨JSValue.obj [("a", JSValue.bool true)], ?_,
        JSValue.obj [("a", JSValue.str "x")], ?_, rfl⟩
    · rw [AM.type_eq_of_ne (by simp), AM.make_mutation]
      refine mem_fcChain.mpr ⟨JSValue.obj [("a", JSValue.str "s")], ?_, ?_⟩
      · exact mem_ArbType.mpr ⟨[("a", JSValue.str "s")], rfl,
          List.Forall₂.cons ⟨rfl, ⟨"s", rfl⟩⟩ List.Forall₂.nil⟩
      · refine mem_fcChain.mpr ⟨"a", mem_oneof_constants.mpr (by simp), ?_⟩
        exact mem_fcMap.mpr
          ⟨JSValue.bool true, mem_fcOneof.mpr ⟨ArbBoolean, by simp, ⟨true, rfl⟩⟩, rfl⟩
    · rw [AM.type_eq_of_ne (by simp), AM.make_mutation]
      refine mem_fcChain.mpr ⟨JSValue.obj [("a", JSValue.num 0)], ?_, ?_⟩
      · exact mem_ArbType.mpr ⟨[("a", JSValue.num 0)], rfl,
          List.Forall₂.cons ⟨rfl, ⟨0, rfl⟩⟩ List.Forall₂.nil⟩
      · refine mem_fcChain.mpr ⟨"a", mem_oneof_constants.mpr (by simp), ?_⟩
        exact mem_fcMap.mpr
          ⟨JSValue.str "x", mem_fcOneof.mpr ⟨ArbString, by simp, ⟨"x", rfl⟩⟩, rfl⟩
  · exact mem_ArbType.mpr ⟨[("a", JSValue.str "x")], rfl,
      List.Forall₂.cons ⟨rfl, ⟨"x", rfl⟩⟩ List.Forall₂.nil⟩

/-- Claim C9 (amended): every draw from intersection(A, B).corrupted is the
structural merge of a draw from A.corrupted and a draw from B.corrupted — both
sides are corrupted before merging — but on a shared key the right side's
field overrides the left's, so the merged result need not fail both sides'
structural validity. -/
theorem C9_intersection_corruption (left right : ArbitraryMutation) :
    ((AM.intersection left right).mutation =
        { v | ∃ a ∈ left.mutation, ∃ b ∈ right.mutation, v = intersectJS a b }) ∧
      ∀ fa fb : List (String × JSValue), ∀ k ∈ fb.map Prod.fst,
        listLookup (mergeFields fa fb) k = listLookup fb k := by
  exact ⟨rfl, fun fa fb k hk => lookup_merge_of_mem_right hk⟩
/-- Witness for C9 (amended): on the concrete merge of obj a: true into
obj a: "x", the shared key a resolves to the right side's value. -/
theorem C9_intersection_corruption_witness :
    ("a" : String) ∈ ([("a", JSValue.str "x")].map Prod.fst) ∧
      listLookup (mergeFields [("a", JSValue.bool true)] [("a", JSValue.str "x")]) "a" =
        listLookup [("a", JSValue.str "x")] "a" := by
  refine ⟨by simp, ?_⟩
  exact (C9_intersection_corruption AM.string AM.number).2
    [("a", JSValue.bool true)] [("a", JSValue.str "x")] "a" (by simp)
